import Mathlib

/-!
Verification of the coverage-collection client (`client/client.go`).

Strings from the Go code are modelled as `List Char`; byte slices as
`List Nat`.  Pure Go string functions (`strings.Split`, `strings.Join`,
`strings.Contains`, `strings.HasPrefix`, `strings.SplitN`,
`strings.Replace`, `filepath.Clean`, `filepath.Join`, `filepath.Base`,
`base64.StdEncoding.DecodeString`) are embedded directly below.
Filesystem and network effects are made explicit: `os.Stat`-existence is
a `List Char → Bool` parameter, the `filepath.Walk` result is a
parameter (association list of relative path / absolute path pairs, in
walk order), the HTTP response is a parameter, and writes performed by
the collector are returned as an explicit trace of `FsAction`s.
-/

namespace CoverageHttp

/-- Convert a Lean string literal to the `List Char` representation. -/
def str (s : String) : List Char := s.data

/-- `strings.HasPrefix(s, p)`: whether `p` is an initial segment of `s`.
(Arguments here: the candidate initial segment first, then the string.) -/
def goStartsWith : List Char → List Char → Bool
  | [], _ => true
  | _ :: _, [] => false
  | a :: ps, b :: ss => a = b && goStartsWith ps ss

/-- `strings.Contains(s, sub)`: whether `sub` occurs contiguously in `s`. -/
def goContains (sub : List Char) : List Char → Bool
  | [] => goStartsWith sub []
  | c :: rest => goStartsWith sub (c :: rest) || goContains sub rest

/-- `strings.Split(s, sep)` for a one-character separator: always returns
at least one piece, and the separator occurs in no piece. -/
def splitOnChar (sep : Char) : List Char → List (List Char)
  | [] => [[]]
  | c :: rest =>
    match splitOnChar sep rest with
    | [] => [[]]
    | l :: ls => if c = sep then [] :: l :: ls else (c :: l) :: ls

/-- `strings.Join(pieces, sep)` for a one-character separator. -/
def joinWith (sep : Char) : List (List Char) → List Char
  | [] => []
  | [l] => l
  | l :: ls => l ++ sep :: joinWith sep ls

/-- `strings.SplitN(line, ":", 2)`: `none` models the no-colon case, in
which Go returns a one-element slice; otherwise the pieces before and
after the first colon. -/
def splitN2Colon : List Char → Option (List Char × List Char)
  | [] => none
  | c :: rest =>
    if c = ':' then some ([], rest)
    else
      match splitN2Colon rest with
      | none => none
      | some (a, b) => some (c :: a, b)

/-- `strings.Replace(s, old, new, 1)`: replace the first occurrence of
`old` in `s` by `new` (with Go's behaviour of inserting `new` at the
front when `old` is empty). -/
def replaceFirst (old new : List Char) : List Char → List Char
  | [] => if goStartsWith old [] then new else []
  | c :: rest =>
    if goStartsWith old (c :: rest) then new ++ (c :: rest).drop old.length
    else c :: replaceFirst old new rest

end CoverageHttp

namespace CoverageHttp

/-! Go `path/filepath` helpers (unix separator `'/'`). -/

/-- Split a path into its `'/'`-separated segments. -/
def splitSep (p : List Char) : List (List Char) := splitOnChar '/' p

/-- The element-processing loop of `filepath.Clean`: empty and `"."`
segments are dropped, `".."` pops the previous segment unless the output
is empty (kept when the path is not rooted, dropped when rooted) or the
previous segment is itself `".."`. -/
def cleanSegs (rooted : Bool) : List (List Char) → List (List Char) → List (List Char)
  | out, [] => out
  | out, e :: rest =>
    if e = [] ∨ e = ['.'] then cleanSegs rooted out rest
    else if e = ['.', '.'] then
      match out.getLast? with
      | none => if rooted then cleanSegs rooted out rest
                else cleanSegs rooted (out ++ [e]) rest
      | some last =>
        if last = ['.', '.'] then cleanSegs rooted (out ++ [e]) rest
        else cleanSegs rooted out.dropLast rest
    else cleanSegs rooted (out ++ [e]) rest

/-- `filepath.Clean` for unix paths. -/
def goClean (p : List Char) : List Char :=
  if p = [] then ['.']
  else
    let rooted := p.head? = some '/'
    let segs := cleanSegs rooted [] (splitSep p)
    if rooted then '/' :: joinWith '/' segs
    else if segs = [] then ['.']
    else joinWith '/' segs

/-- `filepath.Base`: the last element of the path after removing
trailing separators; `"."` for the empty path, `"/"` for all-slash
paths. -/
def goBase (p : List Char) : List Char :=
  if p = [] then ['.']
  else
    let q := (p.reverse.dropWhile (fun c => c = '/')).reverse
    if q = [] then ['/']
    else (q.reverse.takeWhile (fun c => c ≠ '/')).reverse

/-- `filepath.Join`: skip leading empty elements, join the rest with the
separator and `Clean` the result (empty when every element is empty). -/
def goJoin (elems : List (List Char)) : List Char :=
  match elems.dropWhile (fun e => e = []) with
  | [] => []
  | rest => goClean (joinWith '/' rest)

/-- `filepath.Join` of two path elements. -/
def goJoin2 (a b : List Char) : List Char := goJoin [a, b]

/-- Append a `'/'` unless the string already ends with one
(`strings.HasSuffix(s, "/")` followed by the conditional append). -/
def ensureTrailingSep (s : List Char) : List Char :=
  if s.getLast? = some '/' then s else s ++ ['/']

/-- `string(filepath.Separator) + filepath.Join(rootParts...)`, then
normalized to end with a separator, as both root-candidate derivations
in `detectContainerPaths` do. -/
def rootFromParts (parts : List (List Char)) : List Char :=
  ensureTrailingSep ('/' :: goJoin parts)

end CoverageHttp

namespace CoverageHttp

/-! `base64.StdEncoding.DecodeString`.  Go's decoder ignores `'\r'` and
`'\n'`, requires the remaining text to consist of four-character quanta,
allows padding only in the final quantum (`xx==` for one byte, `xxx=`
for two), and rejects any character outside the standard alphabet. -/

/-- Value of one character of the standard base64 alphabet. -/
def b64Val (c : Char) : Option Nat :=
  if 'A' ≤ c ∧ c ≤ 'Z' then some (c.toNat - 65)
  else if 'a' ≤ c ∧ c ≤ 'z' then some (c.toNat - 97 + 26)
  else if '0' ≤ c ∧ c ≤ '9' then some (c.toNat - 48 + 52)
  else if c = '+' then some 62
  else if c = '/' then some 63
  else none

/-- Decode a sequence of four-character base64 quanta into bytes. -/
def base64DecodeQuanta : List Char → Option (List Nat)
  | [] => some []
  | a :: b :: c :: d :: rest =>
    match b64Val a, b64Val b with
    | some va, some vb =>
      if c = '=' then
        if d = '=' ∧ rest = [] then some [va * 4 + vb / 16] else none
      else
        match b64Val c with
        | some vc =>
          if d = '=' then
            if rest = [] then some [va * 4 + vb / 16, (vb % 16) * 16 + vc / 4]
            else none
          else
            match b64Val d, base64DecodeQuanta rest with
            | some vd, some bytes =>
              some ((va * 4 + vb / 16) :: ((vb % 16) * 16 + vc / 4) ::
                    ((vc % 4) * 64 + vd) :: bytes)
            | _, _ => none
        | none => none
    | _, _ => none
  | _ => none

/-- `base64.StdEncoding.DecodeString`: `none` models the error return. -/
def base64Decode (s : List Char) : Option (List Nat) :=
  base64DecodeQuanta (s.filter (fun c => c ≠ '\r' ∧ c ≠ '\n'))

end CoverageHttp

namespace CoverageHttp

/-! `FilterCoverageReport` (client.go lines 861-912).  The filesystem
read/write is factored out: the function maps the bytes of
`coverage.out` to the bytes written to `coverage_filtered.out`. -/

/-- The inner pattern loop: a line is dropped when some non-empty
pattern is a literal substring of it (`pattern != "" &&
strings.Contains(line, pattern)`, with early break). -/
def shouldFilter (line : List Char) (filterPatterns : List (List Char)) : Bool :=
  filterPatterns.any (fun p => !(p = []) && goContains p line)

/-- The line loop of `FilterCoverageReport`: lines surviving the pattern
check are appended to the accumulator in order. -/
def filterLinesLoop (filterPatterns : List (List Char)) :
    List (List Char) → List (List Char) → List (List Char)
  | acc, [] => acc
  | acc, line :: rest =>
    if shouldFilter line filterPatterns then filterLinesLoop filterPatterns acc rest
    else filterLinesLoop filterPatterns (acc ++ [line]) rest

/-- `FilterCoverageReport` on the report contents: when the variadic
`patterns` argument has length zero the client's `defaultFilters` are
used; when the effective pattern list is empty the data is written back
unchanged; otherwise the report is split on newlines, lines matching
some non-empty pattern are dropped, and the rest re-joined. -/
def FilterCoverageReport (defaultFilters patterns : List (List Char))
    (data : List Char) : List Char :=
  let filterPatterns := if patterns.length = 0 then defaultFilters else patterns
  if filterPatterns.length = 0 then data
  else joinWith '\n' (filterLinesLoop filterPatterns [] (splitOnChar '\n' data))

end CoverageHttp

namespace CoverageHttp

/-! `GetPodNameWithContext` (client.go lines 487-513).  The Kubernetes
listing is a parameter: the pods matching the label selector, in listing
order. -/

/-- One listed pod: its name and its status phase. -/
structure PodInfo where
  name : List Char
  phase : List Char
deriving DecidableEq

/-- The two error returns of `GetPodNameWithContext`. -/
inductive GetPodNameError where
  | noPodsFound (labelSelector ns : List Char)
  | noRunningPod (firstPodName firstPodPhase : List Char)
deriving DecidableEq

/-- The `corev1.PodRunning` phase constant. -/
def podRunning : List Char := str "Running"

/-- `GetPodNameWithContext`: an empty listing fails with the
no-pods-found error; otherwise the loop returns the name of the first
pod in `Running` phase, and when none is running it fails with an error
carrying the first listed pod's name and phase. -/
def GetPodNameWithContext (labelSelector ns : List Char) (pods : List PodInfo) :
    Except GetPodNameError (List Char) :=
  match pods with
  | [] => .error (.noPodsFound labelSelector ns)
  | firstPod :: _ =>
    match pods.find? (fun p => p.phase = podRunning) with
    | some p => .ok p.name
    | none => .error (.noRunningPod firstPod.name firstPod.phase)

end CoverageHttp

namespace CoverageHttp

/-! `collectCoverageFromURL` (client.go lines 767-827).  The HTTP
response is a parameter; the filesystem operations the function performs
are returned as an ordered trace. -/

/-- The JSON body of a successful coverage response. -/
structure CoverageResponse where
  metaFilename : List Char
  metaData : List Char
  countersFilename : List Char
  countersData : List Char
deriving DecidableEq

/-- The HTTP response to the coverage POST: status code, raw body, and
the result of JSON-decoding the body into a `CoverageResponse` (`none`
models a JSON decode error). -/
structure CoverageHttpResponse where
  statusCode : Nat
  body : List Char
  decoded : Option CoverageResponse

/-- The error returns of `collectCoverageFromURL` (only those reachable
in the modelled fragment). -/
inductive CollectError where
  | badStatus (statusCode : Nat) (body : List Char)
  | decodeResponse
  | decodeMetadata
  | decodeCounters
deriving DecidableEq

/-- The error message, mirroring the `fmt.Errorf` format strings. -/
def CollectError.message : CollectError → List Char
  | .badStatus c b => str "coverage endpoint returned " ++ (Nat.repr c).data ++ str ": " ++ b
  | .decodeResponse => str "decode coverage response"
  | .decodeMetadata => str "decode metadata"
  | .decodeCounters => str "decode counters"

/-- A filesystem operation performed by the collector. -/
inductive FsAction where
  | mkdirAll (dir : List Char)
  | writeFile (path : List Char) (contents : List Nat)
deriving DecidableEq

/-- `collectCoverageFromURL` after the POST: check the status code, use
the decoded JSON, base64-decode the metadata payload, then the counters
payload, and only then create `<outputDir>/<testName>/` and write the
two blobs under the filenames taken from the response.  Returns the
trace of filesystem operations attempted, paired with the error if
any. -/
def collectCoverageFromURL (outputDir testName : List Char)
    (resp : CoverageHttpResponse) : List FsAction × Option CollectError :=
  if resp.statusCode ≠ 200 then ([], some (.badStatus resp.statusCode resp.body))
  else
    match resp.decoded with
    | none => ([], some .decodeResponse)
    | some covResp =>
      match base64Decode covResp.metaData with
      | none => ([], some .decodeMetadata)
      | some metaBytes =>
        match base64Decode covResp.countersData with
        | none => ([], some .decodeCounters)
        | some counterBytes =>
          let testDir := goJoin2 outputDir testName
          ([.mkdirAll testDir,
            .writeFile (goJoin2 testDir covResp.metaFilename) metaBytes,
            .writeFile (goJoin2 testDir covResp.countersFilename) counterBytes],
           none)

end CoverageHttp

namespace CoverageHttp

/-! `detectContainerPaths` (client.go lines 1180-1402) and
`remapCoveragePaths` (lines 1113-1177).  `os.Stat`-existence is the
parameter `fsExists`; the `filepath.Walk` over the absolute source
directory is the parameter `localFiles`, the (relative path, absolute
path) pairs of the `.go` files found, in walk order (the Go code stores
them in a map, whose iteration order is unspecified; it is modelled here
as the list order). -/

/-- Path collection loop of `detectContainerPaths`: for every non-empty
line not starting with `mode:`, the text before the first colon (or the
whole line if there is none) is appended unless it equals the previously
appended path. -/
def collectCoverageFiles (lines : List (List Char)) : List (List Char) :=
  lines.foldl
    (fun acc line =>
      if line = [] || goStartsWith (str "mode:") line then acc
      else
        let filePath :=
          match splitN2Colon line with
          | some (p, _) => p
          | none => line
        if acc.getLast? = some filePath then acc else acc ++ [filePath])
    []

/-- The paths of the report that do not exist locally. -/
def containerFilesOf (fsExists : List Char → Bool) (lines : List (List Char)) :
    List (List Char) :=
  (collectCoverageFiles lines).filter (fun p => !(fsExists p))

/-- Number of leading positions at which the two lists agree, up to the
first mismatch. -/
def commonLead : List (List Char) → List (List Char) → Nat
  | a :: as, b :: bs => if a = b then commonLead as bs + 1 else 0
  | _, _ => 0

/-- One suffix match between a container path and a local file. -/
structure PathMatch where
  containerFile : List Char
  localFile : List Char
  matchScore : Nat
deriving DecidableEq

/-- The inner matching loop: among local files with the same base name,
keep the one with the highest count of identical trailing path segments
(ties: first encountered), scored against the relative path's
segments. -/
def bestLocalMatch (fileName : List Char) (cParts : List (List Char))
    (localFiles : List (List Char × List Char)) : List Char × Nat :=
  localFiles.foldl
    (fun best entry =>
      if goBase entry.2 ≠ fileName then best
      else
        let score := commonLead cParts.reverse (splitSep entry.1).reverse
        if score > best.2 then (entry.2, score) else best)
    ([], 0)

/-- The outer matching loop: one `PathMatch` per container file whose
best local candidate has a positive score. -/
def computeMatches (localFiles : List (List Char × List Char))
    (containerFiles : List (List Char)) : List PathMatch :=
  containerFiles.foldl
    (fun acc cf =>
      let cPath := goClean cf
      let cParts := splitSep cPath
      let fileName := goBase cPath
      let best := bestLocalMatch fileName cParts localFiles
      if best.1 ≠ [] ∧ best.2 > 0 then acc ++ [⟨cf, best.1, best.2⟩] else acc)
    []

/-- Remote-root candidate of a match: the cleaned container path with
its trailing `matchScore` segments removed, rebuilt as an absolute path
ending with a separator; no candidate when no segments remain. -/
def containerRootCandidate (m : PathMatch) : Option (List Char) :=
  let parts := splitSep (goClean m.containerFile)
  let k := parts.length - m.matchScore
  if k > 0 then some (rootFromParts (parts.take k)) else none

/-- All remote-root candidates, in match order (the multiset the Go code
tallies into `containerRootCounts`). -/
def rootCandsOf (ms : List PathMatch) : List (List Char) :=
  ms.filterMap containerRootCandidate

/-- The tally-and-maximize loop over `containerRootCounts`: starting
from the empty string with count 0, take a root whenever its tally
strictly exceeds the running maximum.  (Go iterates the map in
unspecified order; modelled in first-occurrence order, which the claims
do not depend on.) -/
def bestContainerRoot (cands : List (List Char)) : List Char × Nat :=
  cands.foldl
    (fun bm k => if cands.count k > bm.2 then (k, cands.count k) else bm)
    ([], 0)

/-- Local-root candidate of a match, relative to the committed remote
root: only matches whose (raw) container file starts with the committed
root contribute; the candidate is the cleaned local path with its
trailing `matchScore` segments removed, rebuilt with a leading and
trailing separator. -/
def localRootCandidate (bestRoot : List Char) (m : PathMatch) : Option (List Char) :=
  if goStartsWith bestRoot m.containerFile then
    let parts := splitSep (goClean m.localFile)
    let k := parts.length - m.matchScore
    if k > 0 then some (rootFromParts (parts.take k)) else none
  else none

/-- All local-root candidates for the committed remote root, in match
order. -/
def localCandsOf (bestRoot : List Char) (ms : List PathMatch) : List (List Char) :=
  ms.filterMap (localRootCandidate bestRoot)

/-- The shortest-candidate loop: the first candidate, replaced whenever
a strictly shorter one is seen; the empty string when there are no
candidates. -/
def shortestCandidate : List (List Char) → List Char
  | [] => []
  | c :: rest => rest.foldl (fun best cand => if cand.length < best.length then cand else best) c

/-- `detectContainerPaths`: collect the report's paths, keep those that
do not exist locally (none → no mapping), match them against the local
tree, commit to the most frequently derived remote root and to the
shortest local root consistent with it; any failure along the way yields
no mapping (`none` models the `nil` map). -/
def detectContainerPaths (fsExists : List Char → Bool)
    (localFiles : List (List Char × List Char)) (lines : List (List Char)) :
    Option (List Char × List Char) :=
  let containerFiles := containerFilesOf fsExists lines
  if containerFiles = [] then none
  else
    let ms := computeMatches localFiles containerFiles
    if ms = [] then none
    else
      let bestRoot := (bestContainerRoot (rootCandsOf ms)).1
      if bestRoot = [] then none
      else
        let localRoot := shortestCandidate (localCandsOf bestRoot ms)
        if localRoot = [] then none
        else some (bestRoot, localRoot)

/-- The per-line rewrite of `remapCoveragePaths` for the single
committed mapping: empty lines and lines starting with `mode:` pass
through; otherwise the line is split at the first colon (no colon: pass
through), the path part has the remote root replaced by the local root
when it starts with it, and the line is reassembled. -/
def remapLine (containerRoot localRoot line : List Char) : List Char :=
  if line = [] || goStartsWith (str "mode:") line then line
  else
    match splitN2Colon line with
    | none => line
    | some (filePath, rest) =>
      let newPath :=
        if goStartsWith containerRoot filePath
        then replaceFirst containerRoot localRoot filePath
        else filePath
      newPath ++ ':' :: rest

/-- `remapCoveragePaths` on the report contents: split into lines,
detect the mapping (no mapping: the file is left unchanged), rewrite
each line, re-join. -/
def remapCoveragePaths (fsExists : List Char → Bool)
    (localFiles : List (List Char × List Char)) (data : List Char) : List Char :=
  let lines := splitOnChar '\n' data
  match detectContainerPaths fsExists localFiles lines with
  | none => data
  | some (containerRoot, localRoot) =>
    joinWith '\n' (lines.map (remapLine containerRoot localRoot))

/-- Modelled from the spec (§4.5 step 7 and the C4 claim): the rewrite a
line should undergo — exactly the lines with a file path starting with
the committed remote root have that prefix replaced by the committed
local root; every other line, the mode line and empty lines included, is
unchanged byte for byte. -/
def remapLineSpecDef (containerRoot localRoot line : List Char) : List Char :=
  if line = [] || goStartsWith (str "mode:") line then line
  else
    match splitN2Colon line with
    | none => line
    | some (filePath, rest) =>
      if goStartsWith containerRoot filePath
      then (localRoot ++ filePath.drop containerRoot.length) ++ ':' :: rest
      else line

end CoverageHttp

namespace CoverageHttp

/-! Concrete scenarios used to instantiate the theorems. -/

/-- Walk result of a local tree holding `pkg/a.go` and `pkg/b.go` under
the project root `/src/proj`. -/
def projLocalFiles : List (List Char × List Char) :=
  [(str "pkg/a.go", str "/src/proj/pkg/a.go"),
   (str "pkg/b.go", str "/src/proj/pkg/b.go")]

/-- Existence check for the `/src/proj` tree: exactly its two files
exist. -/
def projFsExists (p : List Char) : Bool :=
  p = str "/src/proj/pkg/a.go" || p = str "/src/proj/pkg/b.go"

/-- A coverage report whose two lines both live under the remote root
`/app/`. -/
def projReport : List Char :=
  str "mode: atomic\n/app/pkg/a.go:1.1,2.2 1 1\n/app/pkg/b.go:1.1,2.2 1 0"

/-- Walk result of a local tree holding `pkg/a.go` and `util/b.go`
directly under `/src`. -/
def twoRootLocalFiles : List (List Char × List Char) :=
  [(str "pkg/a.go", str "/src/pkg/a.go"),
   (str "util/b.go", str "/src/util/b.go")]

/-- Existence check for the `/src` tree. -/
def twoRootFsExists (p : List Char) : Bool :=
  p = str "/src/pkg/a.go" || p = str "/src/util/b.go"

/-- A coverage report whose two lines live under two unrelated remote
roots, `/app/` and `/lib/`. -/
def twoRootReport : List Char :=
  str "mode: atomic\n/app/pkg/a.go:1.1,2.2 1 1\n/lib/util/b.go:1.1,2.2 1 1"

end CoverageHttp

namespace CoverageHttp

/-! Helper lemmas. -/

/-- The filter loop appends to its accumulator exactly the lines that no
non-empty pattern matches, in order. -/
theorem filterLinesLoop_eq_filter (ps : List (List Char)) :
    ∀ (ls acc : List (List Char)),
      filterLinesLoop ps acc ls = acc ++ ls.filter (fun l => !shouldFilter l ps) := by
  intro ls
  induction ls with
  | nil => intro acc; simp [filterLinesLoop]
  | cons line rest ih =>
    intro acc
    by_cases h : shouldFilter line ps
    · simp [filterLinesLoop, h, ih]
    · simp [filterLinesLoop, h, ih]

/-- The empty line matches no pattern set. -/
theorem shouldFilter_nil (ps : List (List Char)) : shouldFilter [] ps = false := by
  induction ps with
  | nil => rfl
  | cons p rest ih =>
    cases p with
    | nil => simpa [shouldFilter, goContains] using ih
    | cons c cs => simpa [shouldFilter, goContains, goStartsWith] using ih

/-- Splitting never yields the empty list of pieces. -/
theorem splitOnChar_ne_nil (sep : Char) (s : List Char) : splitOnChar sep s ≠ [] := by
  induction s with
  | nil => simp [splitOnChar]
  | cons c rest ih =>
    simp only [splitOnChar]
    cases h : splitOnChar sep rest with
    | nil => simp
    | cons l ls =>
      by_cases hc : c = sep <;> simp [hc]

/-- The separator occurs in no piece of a split. -/
theorem not_mem_of_mem_splitOnChar (sep : Char) (s : List Char) :
    ∀ l ∈ splitOnChar sep s, sep ∉ l := by
  induction s with
  | nil => intro l hl; simp [splitOnChar] at hl; simp [hl]
  | cons c rest ih =>
    intro l hl
    simp only [splitOnChar] at hl
    cases h : splitOnChar sep rest with
    | nil => exact absurd h (splitOnChar_ne_nil sep rest)
    | cons x xs =>
      rw [h] at hl
      dsimp only at hl
      by_cases hc : c = sep
      · rw [if_pos hc] at hl
        rcases List.mem_cons.mp hl with rfl | hl'
        · simp
        · exact ih l (by rw [h]; exact hl')
      · rw [if_neg hc] at hl
        rcases List.mem_cons.mp hl with rfl | hl'
        · intro hmem
          rcases List.mem_cons.mp hmem with h1 | h1
          · exact hc h1.symm
          · exact ih x (by rw [h]; exact List.mem_cons_self x xs) h1
        · exact ih l (by rw [h]; exact List.mem_cons_of_mem x hl')

/-- A separator-free string splits into itself alone. -/
theorem splitOnChar_of_not_mem (sep : Char) (l : List Char) (h : sep ∉ l) :
    splitOnChar sep l = [l] := by
  induction l with
  | nil => rfl
  | cons c rest ih =>
    have hc : c ≠ sep := fun hc => h (hc ▸ List.mem_cons_self c rest)
    have hrest : sep ∉ rest := fun hm => h (List.mem_cons_of_mem c hm)
    simp [splitOnChar, ih hrest, hc]

/-- Splitting distributes over a separator following a separator-free
piece. -/
theorem splitOnChar_append_sep (sep : Char) (l t : List Char) (h : sep ∉ l) :
    splitOnChar sep (l ++ sep :: t) = l :: splitOnChar sep t := by
  induction l with
  | nil =>
    simp only [List.nil_append, splitOnChar]
    cases ht : splitOnChar sep t with
    | nil => exact absurd ht (splitOnChar_ne_nil sep t)
    | cons x xs => simp
  | cons c rest ih =>
    have hc : c ≠ sep := fun hc => h (hc ▸ List.mem_cons_self c rest)
    have hrest : sep ∉ rest := fun hm => h (List.mem_cons_of_mem c hm)
    show splitOnChar sep (c :: (rest ++ sep :: t)) = (c :: rest) :: splitOnChar sep t
    rw [splitOnChar, ih hrest]
    simp [hc]

/-- Splitting is a left inverse of joining for non-empty lists of
separator-free pieces. -/
theorem splitOnChar_joinWith (sep : Char) :
    ∀ (ls : List (List Char)), ls ≠ [] → (∀ l ∈ ls, sep ∉ l) →
      splitOnChar sep (joinWith sep ls) = ls := by
  intro ls
  induction ls with
  | nil => intro h; exact absurd rfl h
  | cons l rest ih =>
    intro _ hfree
    cases rest with
    | nil => exact splitOnChar_of_not_mem sep l (hfree l (by simp))
    | cons m ms =>
      have : joinWith sep (l :: m :: ms) = l ++ sep :: joinWith sep (m :: ms) := rfl
      rw [this, splitOnChar_append_sep sep l _ (hfree l (by simp)),
        ih (by simp) (fun x hx => hfree x (List.mem_cons_of_mem l hx))]

end CoverageHttp

namespace CoverageHttp

/-- A string starts with itself followed by anything. -/
theorem goStartsWith_append_self (p t : List Char) :
    goStartsWith p (p ++ t) = true := by
  induction p with
  | nil => rfl
  | cons c rest ih => simp [goStartsWith, ih]

/-- A substring placed anywhere in a string is found by `goContains`. -/
theorem goContains_append (x a b : List Char) :
    goContains x (a ++ (x ++ b)) = true := by
  induction a with
  | nil =>
    cases hx : x ++ b with
    | nil =>
      have : x = [] := by
        cases x with
        | nil => rfl
        | cons c cs => simp at hx
      simp [this, goContains, goStartsWith]
    | cons c cs =>
      simp only [List.nil_append, hx, goContains]
      rw [← hx, goStartsWith_append_self]
      rfl
  | cons c rest ih =>
    simp only [List.cons_append, goContains, Bool.or_eq_true]
    exact Or.inr (by exact ih)

/-- When `old` is an initial segment of `s`, replacing its first
occurrence substitutes exactly that initial segment. -/
theorem replaceFirst_of_startsWith (old new s : List Char)
    (h : goStartsWith old s = true) :
    replaceFirst old new s = new ++ s.drop old.length := by
  cases s with
  | nil =>
    have hold : old = [] := by
      cases old with
      | nil => rfl
      | cons c cs => simp [goStartsWith] at h
    subst hold
    simp [replaceFirst, goStartsWith]
  | cons c rest => simp [replaceFirst, h]

/-- Splitting at the first colon reassembles to the original line. -/
theorem splitN2Colon_eq (line : List Char) :
    ∀ a b, splitN2Colon line = some (a, b) → line = a ++ ':' :: b := by
  induction line with
  | nil => intro a b h; simp [splitN2Colon] at h
  | cons c rest ih =>
    intro a b h
    simp only [splitN2Colon] at h
    by_cases hc : c = ':'
    · rw [if_pos hc] at h
      obtain ⟨rfl, rfl⟩ := by simpa using h
      simp [hc]
    · rw [if_neg hc] at h
      cases hr : splitN2Colon rest with
      | none => rw [hr] at h; simp at h
      | some ab =>
        obtain ⟨x, y⟩ := ab
        rw [hr] at h
        obtain ⟨rfl, rfl⟩ := by simpa using h
        simpa using ih x y hr

end CoverageHttp

namespace CoverageHttp

/-! Fold lemmas for the root-tally maximisation and the
shortest-candidate minimisation. -/

/-- The tally loop's running maximum never decreases. -/
theorem bestFold_snd_mono (cands : List (List Char)) :
    ∀ (l : List (List Char)) (bm : List Char × Nat),
      bm.2 ≤ (l.foldl
        (fun bm k => if cands.count k > bm.2 then (k, cands.count k) else bm) bm).2 := by
  intro l
  induction l with
  | nil => intro bm; simp
  | cons x xs ih =>
    intro bm
    simp only [List.foldl_cons]
    refine le_trans ?_ (ih _)
    by_cases h : cands.count x > bm.2
    · simp [h]; exact le_of_lt h
    · simp [h]

/-- After the tally loop, the running maximum dominates the tally of
every processed root. -/
theorem bestFold_ge_count (cands : List (List Char)) :
    ∀ (l : List (List Char)) (bm : List Char × Nat) (k : List Char), k ∈ l →
      cands.count k ≤ (l.foldl
        (fun bm k => if cands.count k > bm.2 then (k, cands.count k) else bm) bm).2 := by
  intro l
  induction l with
  | nil => intro bm k hk; simp at hk
  | cons x xs ih =>
    intro bm k hk
    simp only [List.foldl_cons]
    rcases List.mem_cons.mp hk with rfl | hk'
    · refine le_trans ?_ (bestFold_snd_mono cands xs _)
      by_cases h : cands.count k > bm.2
      · simp [h]
      · simp [h]; exact le_of_not_lt h
    · exact ih _ k hk'

/-- The tally loop either keeps its input untouched or lands on a
processed root whose tally is the recorded maximum. -/
theorem bestFold_mem_or_id (cands : List (List Char)) :
    ∀ (l : List (List Char)) (bm : List Char × Nat),
      (l.foldl (fun bm k => if cands.count k > bm.2 then (k, cands.count k) else bm) bm)
          = bm ∨
      ((l.foldl (fun bm k => if cands.count k > bm.2 then (k, cands.count k) else bm) bm).1
          ∈ l ∧
        (l.foldl (fun bm k => if cands.count k > bm.2 then (k, cands.count k) else bm) bm).2
          = cands.count
          (l.foldl (fun bm k => if cands.count k > bm.2 then (k, cands.count k) else bm) bm).1) := by
  intro l
  induction l with
  | nil => intro bm; left; rfl
  | cons x xs ih =>
    intro bm
    simp only [List.foldl_cons]
    by_cases h : cands.count x > bm.2
    · rw [if_pos h]
      rcases ih (x, cands.count x) with heq | ⟨hmem, hcount⟩
      · right
        rw [heq]
        exact ⟨List.mem_cons_self x xs, rfl⟩
      · right
        exact ⟨List.mem_cons_of_mem x hmem, hcount⟩
    · rw [if_neg h]
      rcases ih bm with heq | ⟨hmem, hcount⟩
      · left; exact heq
      · right
        exact ⟨List.mem_cons_of_mem x hmem, hcount⟩

/-- The shortest-candidate loop never lengthens its running best. -/
theorem minFold_le (l : List (List Char)) :
    ∀ (b : List Char),
      (l.foldl (fun best cand => if cand.length < best.length then cand else best) b).length
        ≤ b.length := by
  induction l with
  | nil => intro b; simp
  | cons x xs ih =>
    intro b
    simp only [List.foldl_cons]
    refine le_trans (ih _) ?_
    by_cases h : x.length < b.length
    · simp [h]; exact le_of_lt h
    · simp [h]

/-- The shortest-candidate loop's result is no longer than any processed
candidate. -/
theorem minFold_le_mem (l : List (List Char)) :
    ∀ (b c : List Char), c ∈ l →
      (l.foldl (fun best cand => if cand.length < best.length then cand else best) b).length
        ≤ c.length := by
  induction l with
  | nil => intro b c hc; simp at hc
  | cons x xs ih =>
    intro b c hc
    simp only [List.foldl_cons]
    rcases List.mem_cons.mp hc with rfl | hc'
    · refine le_trans (minFold_le xs _) ?_
      by_cases h : c.length < b.length
      · simp [h]
      · simp [h]; exact le_of_not_lt h
    · exact ih _ c hc'

/-- The shortest-candidate loop either keeps its start or lands on a
processed candidate. -/
theorem minFold_mem_or_id (l : List (List Char)) :
    ∀ (b : List Char),
      (l.foldl (fun best cand => if cand.length < best.length then cand else best) b) = b ∨
      (l.foldl (fun best cand => if cand.length < best.length then cand else best) b) ∈ l := by
  induction l with
  | nil => intro b; left; rfl
  | cons x xs ih =>
    intro b
    simp only [List.foldl_cons]
    by_cases h : x.length < b.length
    · rw [if_pos h]
      rcases ih x with heq | hmem
      · right; rw [heq]; exact List.mem_cons_self x xs
      · right; exact List.mem_cons_of_mem x hmem
    · rw [if_neg h]
      rcases ih b with heq | hmem
      · left; exact heq
      · right; exact List.mem_cons_of_mem x hmem

/-- `List.find?` returns the element at the first index satisfying the
predicate. -/
theorem find?_eq_get_of_first {α : Type} (p : α → Bool) :
    ∀ (l : List α) (i : Nat) (hi : i < l.length),
      p (l.get ⟨i, hi⟩) = true →
      (∀ (j : Nat) (hj : j < l.length), j < i → p (l.get ⟨j, hj⟩) = false) →
      l.find? p = some (l.get ⟨i, hi⟩) := by
  intro l
  induction l with
  | nil => intro i hi; simp at hi
  | cons x xs ih =>
    intro i hi hp hmin
    cases i with
    | zero =>
      simp only [List.get] at hp ⊢
      rw [List.find?_cons_of_pos _ hp]
    | succ k =>
      have hx : p x = false := hmin 0 (Nat.succ_pos _) (Nat.succ_pos k)
      rw [List.find?_cons_of_neg _ (by simp [hx])]
      simp only [List.get] at hp ⊢
      exact ih k (Nat.lt_of_succ_lt_succ hi) hp
        (fun j hj hjk => hmin (j + 1) (Nat.succ_lt_succ hj) (Nat.succ_lt_succ hjk))

end CoverageHttp

namespace CoverageHttp

/-- Filtering the join of already-filtered newline-free lines changes
nothing. -/
theorem filterJoin_idem (P : List (List Char)) (data : List Char) :
    joinWith '\n' ((splitOnChar '\n' (joinWith '\n'
        ((splitOnChar '\n' data).filter (fun l => !shouldFilter l P)))).filter
      (fun l => !shouldFilter l P)) =
    joinWith '\n' ((splitOnChar '\n' data).filter (fun l => !shouldFilter l P)) := by
  rcases eq_or_ne ((splitOnChar '\n' data).filter (fun l => !shouldFilter l P)) []
    with hnil | hne
  · rw [hnil]
    show joinWith '\n' ((splitOnChar '\n' (joinWith '\n' [])).filter _) = joinWith '\n' []
    simp [splitOnChar, joinWith, shouldFilter_nil]
  · rw [splitOnChar_joinWith '\n' _ hne
      (fun l hl => not_mem_of_mem_splitOnChar '\n' data l (List.mem_filter.mp hl).1)]
    rw [List.filter_eq_self.mpr (fun a ha => (List.mem_filter.mp ha).2)]

/-- C8: filtering is idempotent — for every report and pattern set,
filtering the result of a filter with the same patterns yields the same
report as filtering once. -/
theorem claim_C8_filter_idempotent (defaultFilters patterns : List (List Char))
    (data : List Char) :
    FilterCoverageReport defaultFilters patterns
        (FilterCoverageReport defaultFilters patterns data) =
      FilterCoverageReport defaultFilters patterns data := by
  unfold FilterCoverageReport
  by_cases hlen : (if patterns.length = 0 then defaultFilters else patterns).length = 0
  · simp only [hlen, if_pos]
  · simp only [if_neg hlen, filterLinesLoop_eq_filter, List.nil_append]
    exact filterJoin_idem _ data

/-- C2 (counterexample): the claim says the mode line is never removed,
but filtering against the pattern `mode:` removes the mode line of the
report `mode: atomic\nfoo.go:1.1,2.2 1 1`. -/
theorem claim_C2_counterexample :
    FilterCoverageReport [] [str "mode:"] (str "mode: atomic\nfoo.go:1.1,2.2 1 1")
        = str "foo.go:1.1,2.2 1 1" ∧
      (str "mode: atomic") ∉ splitOnChar '\n'
        (FilterCoverageReport [] [str "mode:"] (str "mode: atomic\nfoo.go:1.1,2.2 1 1")) := by
  constructor
  · decide
  · decide

/-- C2 (amended): for every report and every non-empty pattern set,
filtering removes exactly those lines — the mode line included, should
it contain a pattern — that contain some non-empty pattern as a literal,
case-sensitive substring; the surviving lines keep their original
relative order. -/
theorem claim_C2_filter_removes_matching_lines
    (defaultFilters patterns : List (List Char)) (data : List Char)
    (h : patterns ≠ []) :
    FilterCoverageReport defaultFilters patterns data =
      joinWith '\n' ((splitOnChar '\n' data).filter
        (fun line => !(patterns.any (fun p => !(p = []) && goContains p line)))) := by
  have hlen : ¬ patterns.length = 0 := by simpa [List.length_eq_zero] using h
  unfold FilterCoverageReport
  simp only [if_neg hlen, filterLinesLoop_eq_filter, List.nil_append]
  rfl

/-- C2 (witness): filtering the report of the spec's example against the
pattern set containing only `server_helper.go` removes exactly the
matching line and keeps the mode line and the other line in order. -/
theorem claim_C2_filter_witness :
    ([str "server_helper.go"] : List (List Char)) ≠ [] ∧
    FilterCoverageReport [] [str "server_helper.go"]
        (str "mode: atomic\npkg/server_helper.go:1.1,2.2 1 1\npkg/main.go:5.1,6.2 2 3") =
      joinWith '\n' ((splitOnChar '\n'
          (str "mode: atomic\npkg/server_helper.go:1.1,2.2 1 1\npkg/main.go:5.1,6.2 2 3")).filter
        (fun line => !(([str "server_helper.go"] : List (List Char)).any
          (fun p => !(p = []) && goContains p line)))) :=
  ⟨by decide,
   claim_C2_filter_removes_matching_lines [] [str "server_helper.go"] _ (by decide)⟩

/-- C3: the code contradicts its own doc comment ("Pass an empty slice
[]string{} to disable all filtering"): a Go variadic call with an
explicitly empty slice yields `len(patterns) == 0`, indistinguishable
from passing no patterns, so the default filters are applied — at the
failing input the line matching the default filter is removed instead of
the report being returned unchanged. -/
theorem claim_C3_empty_patterns_apply_defaults :
    FilterCoverageReport [str "coverage_server.go"] []
        (str "mode: atomic\nserver/coverage_server.go:1.1,2.2 1 1\npkg/main.go:5.1,6.2 2 3")
      = str "mode: atomic\npkg/main.go:5.1,6.2 2 3" ∧
    FilterCoverageReport [str "coverage_server.go"] []
        (str "mode: atomic\nserver/coverage_server.go:1.1,2.2 1 1\npkg/main.go:5.1,6.2 2 3")
      ≠ str "mode: atomic\nserver/coverage_server.go:1.1,2.2 1 1\npkg/main.go:5.1,6.2 2 3" := by
  constructor
  · decide
  · decide

end CoverageHttp

namespace CoverageHttp

/-- C6: pod resolution — an empty listing fails with the not-found
error; a listing whose first running pod sits at index `i` resolves to
that pod's name; a non-empty listing with no running pod fails with an
error carrying the name and phase of the first listed pod. -/
theorem claim_C6_pod_resolution (sel ns : List Char) (pods : List PodInfo) :
    (pods = [] →
      GetPodNameWithContext sel ns pods = .error (.noPodsFound sel ns)) ∧
    (∀ (i : Nat) (hi : i < pods.length),
      (pods.get ⟨i, hi⟩).phase = podRunning →
      (∀ (j : Nat) (hj : j < pods.length), j < i → (pods.get ⟨j, hj⟩).phase ≠ podRunning) →
      GetPodNameWithContext sel ns pods = .ok (pods.get ⟨i, hi⟩).name) ∧
    (∀ (h0 : 0 < pods.length), (∀ pod ∈ pods, pod.phase ≠ podRunning) →
      GetPodNameWithContext sel ns pods =
        .error (.noRunningPod (pods.get ⟨0, h0⟩).name (pods.get ⟨0, h0⟩).phase)) := by
  refine ⟨fun h => by rw [h]; rfl, ?_, ?_⟩
  · intro i hi hp hmin
    cases pods with
    | nil => simp at hi
    | cons firstPod rest =>
      have hfind : (firstPod :: rest).find? (fun p => p.phase = podRunning)
          = some ((firstPod :: rest).get ⟨i, hi⟩) := by
        refine find?_eq_get_of_first _ (firstPod :: rest) i hi (by simpa using hp) ?_
        intro j hj hji
        simpa using hmin j hj hji
      simp only [GetPodNameWithContext]
      rw [hfind]
  · intro h0 hall
    cases pods with
    | nil => simp at h0
    | cons firstPod rest =>
      have hfind : (firstPod :: rest).find? (fun p => p.phase = podRunning) = none :=
        List.find?_eq_none.mpr (fun p hp => by simpa using hall p hp)
      simp only [GetPodNameWithContext]
      rw [hfind]
      rfl

/-- C6 (witness): in a listing with a pending pod first and a running
pod second, resolution returns the running pod's name. -/
theorem claim_C6_pod_resolution_witness :
    GetPodNameWithContext (str "app=demo") (str "default")
        [⟨str "pod-a", str "Pending"⟩, ⟨str "pod-b", str "Running"⟩]
      = .ok (str "pod-b") := by
  have h := (claim_C6_pod_resolution (str "app=demo") (str "default")
      [⟨str "pod-a", str "Pending"⟩, ⟨str "pod-b", str "Running"⟩]).2.1
    1 (by decide) (by decide) (by decide)
  exact h

end CoverageHttp

namespace CoverageHttp

/-- C9: every response whose status code is not a success (2xx) makes
the collector fail before any filesystem action, with an error whose
message contains the decimal status code. -/
theorem claim_C9_bad_status_error (outputDir testName : List Char)
    (resp : CoverageHttpResponse)
    (h : ¬ (200 ≤ resp.statusCode ∧ resp.statusCode < 300)) :
    ∃ e, collectCoverageFromURL outputDir testName resp = ([], some e) ∧
      goContains (Nat.repr resp.statusCode).data e.message = true := by
  have hne : resp.statusCode ≠ 200 := by
    intro h200
    exact h ⟨le_of_eq h200.symm, by omega⟩
  refine ⟨.badStatus resp.statusCode resp.body, ?_, ?_⟩
  · unfold collectCoverageFromURL
    rw [if_pos hne]
  · show goContains (Nat.repr resp.statusCode).data
      (str "coverage endpoint returned " ++ (Nat.repr resp.statusCode).data
        ++ str ": " ++ resp.body) = true
    have := goContains_append (Nat.repr resp.statusCode).data
      (str "coverage endpoint returned ") (str ": " ++ resp.body)
    simpa [List.append_assoc] using this

/-- C9 (witness): a status-500 response with body `boom` fails with an
error whose message contains `500`. -/
theorem claim_C9_bad_status_error_witness :
    ∃ e, collectCoverageFromURL (str "out") (str "test1")
        ⟨500, str "boom", none⟩ = ([], some e) ∧
      goContains (Nat.repr 500).data e.message = true :=
  claim_C9_bad_status_error (str "out") (str "test1") ⟨500, str "boom", none⟩ (by decide)

/-- C10: when the base64 decode of the meta payload or of the counters
payload fails, the collector returns an error having performed no
filesystem action at all — both decodes precede the directory creation
and the writes. -/
theorem claim_C10_decode_failure_no_writes (outputDir testName : List Char)
    (resp : CoverageHttpResponse) (r : CoverageResponse)
    (hstatus : resp.statusCode = 200) (hdec : resp.decoded = some r)
    (hfail : base64Decode r.metaData = none ∨ base64Decode r.countersData = none) :
    (collectCoverageFromURL outputDir testName resp).1 = [] ∧
      ∃ e, (collectCoverageFromURL outputDir testName resp).2 = some e := by
  unfold collectCoverageFromURL
  rw [if_neg (by simp [hstatus]), hdec]
  dsimp only
  rcases hfail with hm | hc
  · rw [hm]
    exact ⟨rfl, _, rfl⟩
  · cases hmeta : base64Decode r.metaData with
    | none => exact ⟨rfl, _, rfl⟩
    | some mb => rw [hc]; exact ⟨rfl, _, rfl⟩

/-- C10 (witness): an invalid meta payload leaves the filesystem
untouched. -/
theorem claim_C10_decode_failure_witness :
    (collectCoverageFromURL (str "out") (str "test1")
        ⟨200, [], some ⟨str "covmeta.X", str "!!!!", str "covcounters.X", str "aGVsbG8="⟩⟩).1
        = [] ∧
      ∃ e, (collectCoverageFromURL (str "out") (str "test1")
        ⟨200, [], some ⟨str "covmeta.X", str "!!!!", str "covcounters.X", str "aGVsbG8="⟩⟩).2
        = some e :=
  claim_C10_decode_failure_no_writes (str "out") (str "test1") _ _ rfl rfl
    (Or.inl (by decide))

/-- C7: a successful collection performs exactly three filesystem
actions, in order: creating `<outputDir>/<testName>/`, writing the
base64-decoded meta bytes under the response's meta filename in that
directory, and writing the base64-decoded counters bytes under the
response's counters filename. -/
theorem claim_C7_success_writes (outputDir testName : List Char)
    (resp : CoverageHttpResponse) (r : CoverageResponse) (mb cb : List Nat)
    (hstatus : resp.statusCode = 200) (hdec : resp.decoded = some r)
    (hm : base64Decode r.metaData = some mb) (hc : base64Decode r.countersData = some cb) :
    collectCoverageFromURL outputDir testName resp =
      ([.mkdirAll (goJoin2 outputDir testName),
        .writeFile (goJoin2 (goJoin2 outputDir testName) r.metaFilename) mb,
        .writeFile (goJoin2 (goJoin2 outputDir testName) r.countersFilename) cb],
       none) := by
  unfold collectCoverageFromURL
  rw [if_neg (by simp [hstatus]), hdec]
  dsimp only
  rw [hm]
  dsimp only
  rw [hc]

/-- C7 (witness): a response with meta filename `covmeta.X` and meta
payload `base64("hello")` produces the file `out/test1/covmeta.X` whose
contents are exactly the bytes of `hello`. -/
theorem claim_C7_success_writes_witness :
    collectCoverageFromURL (str "out") (str "test1")
        ⟨200, [], some ⟨str "covmeta.X", str "aGVsbG8=", str "covcounters.X", str "aGVsbG8="⟩⟩
      = ([.mkdirAll (str "out/test1"),
          .writeFile (str "out/test1/covmeta.X") [104, 101, 108, 108, 111],
          .writeFile (str "out/test1/covcounters.X") [104, 101, 108, 108, 111]],
         none) := by
  have h := claim_C7_success_writes (str "out") (str "test1")
    ⟨200, [], some ⟨str "covmeta.X", str "aGVsbG8=", str "covcounters.X", str "aGVsbG8="⟩⟩
    ⟨str "covmeta.X", str "aGVsbG8=", str "covcounters.X", str "aGVsbG8="⟩
    [104, 101, 108, 108, 111] [104, 101, 108, 108, 111]
    rfl rfl (by decide) (by decide)
  exact h.trans (by decide)

end CoverageHttp

namespace CoverageHttp

/-- The implemented per-line rewrite agrees with the spec-side
prefix-substitution description of it. -/
theorem remapLine_eq_spec (containerRoot localRoot line : List Char) :
    remapLine containerRoot localRoot line =
      remapLineSpecDef containerRoot localRoot line := by
  unfold remapLine remapLineSpecDef
  by_cases h0 : (line = [] || goStartsWith (str "mode:") line) = true
  · rw [if_pos h0, if_pos h0]
  · rw [if_neg h0, if_neg h0]
    cases hsp : splitN2Colon line with
    | none => rfl
    | some ab =>
      obtain ⟨fp, rest⟩ := ab
      dsimp only
      by_cases hpre : goStartsWith containerRoot fp = true
      · rw [if_pos hpre, if_pos hpre,
          replaceFirst_of_startsWith containerRoot localRoot fp hpre]
      · rw [if_neg hpre, if_neg hpre]
        exact (splitN2Colon_eq line fp rest hsp).symm

/-- C4: when the inference derives no root pair the report is unchanged;
when it commits a root pair, exactly the lines whose file path starts
with the committed remote root are rewritten by substituting the
committed local root for that prefix, and every other line — mode line,
empty lines, colon-free lines and non-matching paths — is unchanged byte
for byte. -/
theorem claim_C4_remap_characterization (fsExists : List Char → Bool)
    (localFiles : List (List Char × List Char)) (data : List Char) :
    (detectContainerPaths fsExists localFiles (splitOnChar '\n' data) = none →
      remapCoveragePaths fsExists localFiles data = data) ∧
    (∀ containerRoot localRoot,
      detectContainerPaths fsExists localFiles (splitOnChar '\n' data)
          = some (containerRoot, localRoot) →
      remapCoveragePaths fsExists localFiles data =
        joinWith '\n' ((splitOnChar '\n' data).map
          (remapLineSpecDef containerRoot localRoot))) := by
  constructor
  · intro h
    simp only [remapCoveragePaths]
    rw [h]
  · intro containerRoot localRoot h
    simp only [remapCoveragePaths]
    rw [h]
    have hfun : remapLine containerRoot localRoot = remapLineSpecDef containerRoot localRoot :=
      funext (remapLine_eq_spec containerRoot localRoot)
    dsimp only
    rw [hfun]

/-- C4 (witness): on the `/app/` report over the `/src/proj` tree the
inference commits the pair `(/app/, /src/proj/)` and the remap equals
the spec-side per-line rewrite. -/
theorem claim_C4_remap_witness :
    detectContainerPaths projFsExists projLocalFiles (splitOnChar '\n' projReport)
        = some (str "/app/", str "/src/proj/") ∧
      remapCoveragePaths projFsExists projLocalFiles projReport =
        joinWith '\n' ((splitOnChar '\n' projReport).map
          (remapLineSpecDef (str "/app/") (str "/src/proj/"))) :=
  ⟨by decide,
   (claim_C4_remap_characterization projFsExists projLocalFiles projReport).2
     (str "/app/") (str "/src/proj/") (by decide)⟩

/-- When every path referenced by the report exists locally, the remap
is the identity (no container paths are detected). -/
theorem remap_id_of_paths_exist (fsExists : List Char → Bool)
    (localFiles : List (List Char × List Char)) (data : List Char)
    (h : ∀ p ∈ collectCoverageFiles (splitOnChar '\n' data), fsExists p = true) :
    remapCoveragePaths fsExists localFiles data = data := by
  have hcf : containerFilesOf fsExists (splitOnChar '\n' data) = [] := by
    unfold containerFilesOf
    refine List.filter_eq_nil_iff.mpr ?_
    intro p hp
    simp [h p hp]
  have hd : detectContainerPaths fsExists localFiles (splitOnChar '\n' data) = none := by
    simp [detectContainerPaths, hcf]
  simp only [remapCoveragePaths]
  rw [hd]

/-- C5 (counterexample): the claim fails on a report spanning two
unrelated remote roots — after the first remap a remote-only path
remains, and a second remap rewrites it, so the second pass differs from
the first. -/
theorem claim_C5_counterexample :
    containerFilesOf twoRootFsExists (splitOnChar '\n'
        (remapCoveragePaths twoRootFsExists twoRootLocalFiles twoRootReport)) ≠ [] ∧
      remapCoveragePaths twoRootFsExists twoRootLocalFiles
          (remapCoveragePaths twoRootFsExists twoRootLocalFiles twoRootReport)
        ≠ remapCoveragePaths twoRootFsExists twoRootLocalFiles twoRootReport := by
  constructor
  · decide
  · decide

/-- C5 (amended): remap is idempotent whenever the first pass leaves no
remote-only path — if every path referenced by the first pass's output
exists locally, a second remap detects nothing and returns the same
report. -/
theorem claim_C5_remap_idempotent_when_all_local (fsExists : List Char → Bool)
    (localFiles : List (List Char × List Char)) (data : List Char)
    (h : ∀ p ∈ collectCoverageFiles (splitOnChar '\n'
        (remapCoveragePaths fsExists localFiles data)), fsExists p = true) :
    remapCoveragePaths fsExists localFiles
        (remapCoveragePaths fsExists localFiles data)
      = remapCoveragePaths fsExists localFiles data :=
  remap_id_of_paths_exist fsExists localFiles _ h

/-- C5 (witness): on the single-root `/app/` report every remapped path
exists locally and the second remap pass returns the first pass's
output. -/
theorem claim_C5_remap_witness :
    (∀ p ∈ collectCoverageFiles (splitOnChar '\n'
        (remapCoveragePaths projFsExists projLocalFiles projReport)),
      projFsExists p = true) ∧
    remapCoveragePaths projFsExists projLocalFiles
        (remapCoveragePaths projFsExists projLocalFiles projReport)
      = remapCoveragePaths projFsExists projLocalFiles projReport :=
  ⟨by decide,
   claim_C5_remap_idempotent_when_all_local projFsExists projLocalFiles projReport (by decide)⟩

end CoverageHttp

namespace CoverageHttp

/-- When the tally loop lands on a non-empty root, that root is one of
the candidates and its tally dominates every candidate's tally. -/
theorem bestContainerRoot_spec (cands : List (List Char))
    (hne : (bestContainerRoot cands).1 ≠ []) :
    (bestContainerRoot cands).1 ∈ cands ∧
      ∀ r ∈ cands, cands.count r ≤ cands.count (bestContainerRoot cands).1 := by
  unfold bestContainerRoot at hne ⊢
  rcases bestFold_mem_or_id cands cands ([], 0) with heq | ⟨hmem, hcount⟩
  · exact absurd (congrArg Prod.fst heq) hne
  · refine ⟨hmem, fun r hr => ?_⟩
    calc cands.count r
        ≤ (cands.foldl
            (fun bm k => if cands.count k > bm.2 then (k, cands.count k) else bm)
            ([], 0)).2 := bestFold_ge_count cands cands ([], 0) r hr
      _ = _ := hcount

/-- The shortest-candidate loop returns a candidate of minimal length
whenever there is a candidate at all. -/
theorem shortestCandidate_spec (cands : List (List Char)) (hne : cands ≠ []) :
    shortestCandidate cands ∈ cands ∧
      ∀ c ∈ cands, (shortestCandidate cands).length ≤ c.length := by
  cases cands with
  | nil => exact absurd rfl hne
  | cons c rest =>
    constructor
    · show rest.foldl (fun best cand => if cand.length < best.length then cand else best) c
        ∈ c :: rest
      rcases minFold_mem_or_id rest c with heq | hmem
      · rw [heq]; exact List.mem_cons_self c rest
      · exact List.mem_cons_of_mem c hmem
    · intro x hx
      rcases List.mem_cons.mp hx with rfl | hx'
      · exact minFold_le rest x
      · exact minFold_le_mem rest c x hx'

/-- C1: whenever the inference commits a root pair, the committed remote
root is one of the per-match remote-root candidates and its frequency is
maximal among them, and the committed local root is one of the
local-root candidates derived from matches whose remote path starts with
the committed remote root, of minimal length among them. -/
theorem claim_C1_root_pair_selection (fsExists : List Char → Bool)
    (localFiles : List (List Char × List Char)) (lines : List (List Char))
    (containerRoot localRoot : List Char)
    (h : detectContainerPaths fsExists localFiles lines = some (containerRoot, localRoot)) :
    containerRoot ∈ rootCandsOf (computeMatches localFiles (containerFilesOf fsExists lines)) ∧
      (∀ r ∈ rootCandsOf (computeMatches localFiles (containerFilesOf fsExists lines)),
        (rootCandsOf (computeMatches localFiles (containerFilesOf fsExists lines))).count r ≤
          (rootCandsOf (computeMatches localFiles
            (containerFilesOf fsExists lines))).count containerRoot) ∧
      localRoot ∈ localCandsOf containerRoot
          (computeMatches localFiles (containerFilesOf fsExists lines)) ∧
      (∀ c ∈ localCandsOf containerRoot
          (computeMatches localFiles (containerFilesOf fsExists lines)),
        localRoot.length ≤ c.length) := by
  simp only [detectContainerPaths] at h
  by_cases h1 : containerFilesOf fsExists lines = []
  · rw [if_pos h1] at h; exact absurd h (by simp)
  rw [if_neg h1] at h
  by_cases h2 : computeMatches localFiles (containerFilesOf fsExists lines) = []
  · rw [if_pos h2] at h; exact absurd h (by simp)
  rw [if_neg h2] at h
  by_cases h3 : (bestContainerRoot (rootCandsOf
      (computeMatches localFiles (containerFilesOf fsExists lines)))).1 = []
  · rw [if_pos h3] at h; exact absurd h (by simp)
  rw [if_neg h3] at h
  by_cases h4 : shortestCandidate (localCandsOf
      (bestContainerRoot (rootCandsOf
        (computeMatches localFiles (containerFilesOf fsExists lines)))).1
      (computeMatches localFiles (containerFilesOf fsExists lines))) = []
  · rw [if_pos h4] at h; exact absurd h (by simp)
  rw [if_neg h4] at h
  obtain ⟨hcr, hlr⟩ :
      (bestContainerRoot (rootCandsOf
          (computeMatches localFiles (containerFilesOf fsExists lines)))).1
        = containerRoot ∧
      shortestCandidate (localCandsOf
          (bestContainerRoot (rootCandsOf
            (computeMatches localFiles (containerFilesOf fsExists lines)))).1
          (computeMatches localFiles (containerFilesOf fsExists lines)))
        = localRoot := by
    simpa using h
  subst hcr
  subst hlr
  have hroot := bestContainerRoot_spec
    (rootCandsOf (computeMatches localFiles (containerFilesOf fsExists lines))) h3
  have hlcne : localCandsOf
      (bestContainerRoot (rootCandsOf
        (computeMatches localFiles (containerFilesOf fsExists lines)))).1
      (computeMatches localFiles (containerFilesOf fsExists lines)) ≠ [] := by
    intro he
    rw [he] at h4
    exact h4 rfl
  have hlocal := shortestCandidate_spec
    (localCandsOf
      (bestContainerRoot (rootCandsOf
        (computeMatches localFiles (containerFilesOf fsExists lines)))).1
      (computeMatches localFiles (containerFilesOf fsExists lines))) hlcne
  exact ⟨hroot.1, hroot.2, hlocal.1, hlocal.2⟩

/-- C1 (witness): on the `/app/` report over the `/src/proj` tree the
inference commits `(/app/, /src/proj/)`, the committed remote root has
maximal tally among the candidates, and the committed local root is of
minimal length among the consistent local-root candidates. -/
theorem claim_C1_root_pair_selection_witness :
    detectContainerPaths projFsExists projLocalFiles (splitOnChar '\n' projReport)
        = some (str "/app/", str "/src/proj/") ∧
      (str "/app/" ∈ rootCandsOf (computeMatches projLocalFiles
          (containerFilesOf projFsExists (splitOnChar '\n' projReport))) ∧
        (∀ r ∈ rootCandsOf (computeMatches projLocalFiles
            (containerFilesOf projFsExists (splitOnChar '\n' projReport))),
          (rootCandsOf (computeMatches projLocalFiles
              (containerFilesOf projFsExists (splitOnChar '\n' projReport)))).count r ≤
            (rootCandsOf (computeMatches projLocalFiles
              (containerFilesOf projFsExists (splitOnChar '\n' projReport)))).count
              (str "/app/")) ∧
        str "/src/proj/" ∈ localCandsOf (str "/app/") (computeMatches projLocalFiles
            (containerFilesOf projFsExists (splitOnChar '\n' projReport))) ∧
        (∀ c ∈ localCandsOf (str "/app/") (computeMatches projLocalFiles
            (containerFilesOf projFsExists (splitOnChar '\n' projReport))),
          (str "/src/proj/").length ≤ c.length)) :=
  ⟨by decide,
   claim_C1_root_pair_selection projFsExists projLocalFiles
     (splitOnChar '\n' projReport) (str "/app/") (str "/src/proj/") (by decide)⟩

end CoverageHttp
